import Mathlib

/-
  Verification of the core rendering pipeline of a small Rust path tracer
  (raytracing-one-weekend-rs).  Scalars of the source (`f64`) are modelled
  by `ℚ`; floating-point rounding is out of scope, but the finite extreme
  values `f64::MAX` / `f64::MIN` are kept as exact rational constants since
  the interval logic compares against them.  The square root (`f64::sqrt`),
  which has no exact rational counterpart, is threaded through as an
  abstract function `SqrtFn` assumed to agree with `sqrt` on the facts the
  code relies on (`sqrt 0 = 0`, positivity on positive inputs); a concrete
  instance `ratSqrt` (exact on perfect squares) is used for witnesses.
  Rust functions that can panic (`unwrap`) are embedded with result type
  `Option`, where `none` marks the panic.
-/

namespace RTW

/-- `f64::MAX` as an exact rational: (2^53 - 1) * 2^971. -/
def f64max : ℚ := (2 ^ 53 - 1) * 2 ^ 971

/-- `f64::MIN` as an exact rational: the negation of `f64::MAX`. -/
def f64min : ℚ := -f64max

/-- src/point.rs: `Point` (alias `Vector`), three `f64` components. -/
structure Point where
  x : ℚ
  y : ℚ
  z : ℚ
deriving DecidableEq

namespace Point

/-- `Point::default()` — all components zero (derived `Default`). -/
def default : Point := ⟨0, 0, 0⟩

/-- src/point.rs `impl Add for Point`. -/
instance : Add Point := ⟨fun a b => ⟨a.x + b.x, a.y + b.y, a.z + b.z⟩⟩

/-- src/point.rs `impl Sub for Point`. -/
instance : Sub Point := ⟨fun a b => ⟨a.x - b.x, a.y - b.y, a.z - b.z⟩⟩

/-- src/point.rs `impl Neg for Point`. -/
instance : Neg Point := ⟨fun a => ⟨-a.x, -a.y, -a.z⟩⟩

/-- src/point.rs `impl Mul<Point> for Point` — componentwise product. -/
instance : Mul Point := ⟨fun a b => ⟨a.x * b.x, a.y * b.y, a.z * b.z⟩⟩

/-- src/point.rs `impl Mul<Point> for f64` — scalar times vector. -/
instance : HMul ℚ Point Point := ⟨fun k a => ⟨k * a.x, k * a.y, k * a.z⟩⟩

/-- src/point.rs `impl Mul<f64> for Point` — vector times scalar. -/
instance : HMul Point ℚ Point := ⟨fun a k => ⟨a.x * k, a.y * k, a.z * k⟩⟩

/-- src/point.rs `impl Div<f64> for Point`: returns `None` when the
divisor is exactly zero, otherwise the componentwise quotient. -/
instance : HDiv Point ℚ (Option Point) :=
  ⟨fun a k => if k = 0 then none else some ⟨a.x / k, a.y / k, a.z / k⟩⟩

/-- src/point.rs: `Point::len_squared`. -/
def len_squared (a : Point) : ℚ := a.x * a.x + a.y * a.y + a.z * a.z

/-- src/point.rs: `Point::near_zero` — every component below 1e-8 in
absolute value. -/
def near_zero (a : Point) : Prop :=
  |a.x| < 1 / 10 ^ 8 ∧ |a.y| < 1 / 10 ^ 8 ∧ |a.z| < 1 / 10 ^ 8

instance : DecidablePred near_zero := fun a => by
  unfold near_zero; infer_instance

end Point

/-- src/point.rs: `dot`. -/
def dot (lhs rhs : Point) : ℚ :=
  lhs.x * rhs.x + lhs.y * rhs.y + lhs.z * rhs.z

/-- src/point.rs: `cross`. -/
def cross (lhs rhs : Point) : Point :=
  ⟨lhs.y * rhs.z - lhs.z * rhs.y,
   lhs.z * rhs.x - lhs.x * rhs.z,
   lhs.x * rhs.y - lhs.y * rhs.x⟩

/-- src/point.rs: `reflect(lhs, rhs) = lhs - rhs * 2 * dot(lhs, rhs)`. -/
def reflect (lhs rhs : Point) : Point :=
  lhs - (rhs * (2 : ℚ)) * (dot lhs rhs : ℚ)

/-- The abstract square root standing in for `f64::sqrt`: any function
with `sqrt 0 = 0` and positivity on positives (both true of the IEEE
square root on exact rational inputs). -/
structure SqrtFn where
  f : ℚ → ℚ
  map_zero : f 0 = 0
  map_pos : ∀ q : ℚ, 0 < q → 0 < f q

/-- src/point.rs: `Point::len` — square root of `len_squared`. -/
def Point.len (S : SqrtFn) (a : Point) : ℚ := S.f a.len_squared

/-- src/point.rs: `Point::unit` — `self / self.len()`, `None` when the
length is zero (fallible division). -/
def Point.unit (S : SqrtFn) (a : Point) : Option Point :=
  a / (a.len S : ℚ)

/-- src/point.rs: `Point::sqrt` — componentwise square root (gamma). -/
def Point.sqrtP (S : SqrtFn) (a : Point) : Point :=
  ⟨S.f a.x, S.f a.y, S.f a.z⟩

/-- src/point.rs: `refract(lhs, rhs, etai_over_etat)`. -/
def refract (S : SqrtFn) (lhs rhs : Point) (etai_over_etat : ℚ) : Point :=
  let cos_theta := min (dot (-lhs) rhs) 1
  let r_out_perp : Point := etai_over_etat * (lhs + rhs * cos_theta)
  let r_out_parallel : Point := rhs * (-(S.f |1 - r_out_perp.len_squared|))
  r_out_perp + r_out_parallel

/-- Integer square root by bounded search (structurally recursive, so it
evaluates inside the kernel, unlike `Nat.sqrt`). -/
def natSqrtLin : ℕ → ℕ
  | 0 => 0
  | n + 1 =>
    let r := natSqrtLin n
    if (r + 1) * (r + 1) ≤ n + 1 then r + 1 else r

/-- A concrete `SqrtFn` used for witnesses: exact when the rational is a
perfect square (matching IEEE sqrt, which is exact there), `1` elsewhere. -/
def ratSqrtFun (q : ℚ) : ℚ :=
  if q ≤ 0 then 0
  else
    let n := natSqrtLin q.num.toNat
    let d := natSqrtLin q.den
    if n * n = q.num.toNat ∧ d * d = q.den then (n : ℚ) / (d : ℚ) else 1

/-- The concrete square-root model for witnesses. -/
def ratSqrt : SqrtFn where
  f := ratSqrtFun
  map_zero := by simp [ratSqrtFun]
  map_pos := by
    intro q hq
    unfold ratSqrtFun
    rw [if_neg (by linarith)]
    by_cases h : natSqrtLin q.num.toNat * natSqrtLin q.num.toNat = q.num.toNat ∧
        natSqrtLin q.den * natSqrtLin q.den = q.den
    · rw [if_pos h]
      have hnum : 0 < q.num := Rat.num_pos.mpr hq
      have hn : 0 < natSqrtLin q.num.toNat := by
        rcases Nat.eq_zero_or_pos (natSqrtLin q.num.toNat) with h0 | h0
        · exfalso
          have h1 := h.1
          rw [h0] at h1
          omega
        · exact h0
      have hd : 0 < natSqrtLin q.den := by
        have hden : 0 < q.den := q.pos
        rcases Nat.eq_zero_or_pos (natSqrtLin q.den) with h0 | h0
        · exfalso
          have h2 := h.2
          rw [h0] at h2
          omega
        · exact h0
      positivity
    · rw [if_neg h]; norm_num

/-- src/ray.rs: `Ray` — origin plus direction. -/
structure Ray where
  origin : Point
  direction : Point
deriving DecidableEq

/-- src/ray.rs: `Ray::at(t) = origin + t * direction`. -/
def Ray.at (r : Ray) (t : ℚ) : Point := r.origin + (t : ℚ) * r.direction

/-- src/hittable.rs: the tri-state `Interval`. -/
inductive Interval where
  | Empty : Interval
  | Universe : Interval
  | Some (mn mx : ℚ) : Interval

namespace Interval

/-- src/hittable.rs: `Interval::new_set_interval` — collapses the two
reserved extreme encodings to `Universe` / `Empty`. -/
def new_set_interval (mn mx : ℚ) : Interval :=
  if mn = f64min ∧ mx = f64max then Universe
  else if mn = f64max ∧ mx = f64min then Empty
  else Some mn mx

/-- src/hittable.rs: `Interval::surrounds` — strict membership. -/
def surrounds : Interval → ℚ → Bool
  | Universe, _ => true
  | Empty, _ => false
  | Some mn mx, x => decide (mn < x ∧ x < mx)

/-- src/hittable.rs: `Interval::min`. -/
def imin : Interval → ℚ
  | Universe => f64min
  | Empty => f64max
  | Some mn _ => mn

/-- src/hittable.rs: `Interval::max`. -/
def imax : Interval → ℚ
  | Universe => f64max
  | Empty => f64min
  | Some _ mx => mx

end Interval

/-- src/material.rs: the `Material` capability, `scatter(r_in, rec)`.
The hit record is passed by its geometric fields (`p`, `normal`,
`front_face` are the ones the three implementations read); randomness is
already folded into the particular function value. -/
def Material := Ray → Point → Point → Bool → Option (Point × Ray)

/-- src/hittable.rs: `HitRecord`. -/
structure HitRecord where
  p : Point
  normal : Point
  t : ℚ
  front_face : Bool
  mat : Material

/-- src/hittable.rs: the `Hittable` capability, `hit(r, ray_t)`. -/
def Hittable := Ray → Interval → Option HitRecord

/-- src/hittable.rs: `HittableList` — a list of hittables. -/
def HittableList := List Hittable

/-- src/hittable.rs: `HittableList::hit` — the fold that re-queries each
member with the lower bound unchanged and the upper bound tightened to the
best `t` found so far (`map_or(ray_t.max(), |x| x.t)`). -/
def listHit (l : HittableList) (r : Ray) (ray_t : Interval) : Option HitRecord :=
  l.foldl
    (fun hit_record x =>
      match x r (Interval.new_set_interval ray_t.imin
          ((hit_record.map (fun hr => hr.t)).getD ray_t.imax)) with
      | some hr => some hr
      | none => hit_record)
    none

/-- src/sphere.rs: `Sphere`. -/
structure Sphere where
  center : Point
  radius : ℚ
  mat : Material

/-- src/sphere.rs: `Sphere::hit` — quadratic intersection.  The two root
divisions are raw `f64` divisions in the source; for a ray with
`a = |direction|² = 0` the source produces a non-finite root that fails
every bounded `surrounds` test, and the model's `ℚ` division yields `0`,
which likewise fails `surrounds` for the positive-min intervals the
renderer uses.  The outward-normal division is the fallible `Point`
division and is propagated with `?`. -/
def sphereHit (S : SqrtFn) (sph : Sphere) (r : Ray) (ray_t : Interval) :
    Option HitRecord :=
  let oc := r.origin - sph.center
  let a := r.direction.len_squared
  let half_b := dot oc r.direction
  let c := oc.len_squared - sph.radius * sph.radius
  let discriminant := half_b * half_b - a * c
  if discriminant < 0 then none
  else
    let sqrtd := S.f discriminant
    let root1 := (-half_b - sqrtd) / a
    let root := if ray_t.surrounds root1 then root1 else (-half_b + sqrtd) / a
    if ray_t.surrounds root then
      let t := root
      let p := r.at root
      match (p - sph.center) / sph.radius with
      | none => none
      | some normal =>
        let front_face := decide (dot r.direction normal < 0)
        let normal := if front_face then normal else -normal
        some ⟨p, normal, t, front_face, sph.mat⟩
    else none

/-- src/lambertian.rs: `Lambertian::scatter`.  `sample` is the accepted
rejection-sampled point from `random_in_unit_sphere`; `random_in_unit_vector`
normalizes it and the `?` propagates its failure. -/
def lambertianScatter (S : SqrtFn) (color : Point) (sample : Point) : Material :=
  fun _r_in p normal _front_face =>
    match sample.unit S with
    | none => none
    | some ruv =>
      let sd := normal + ruv
      let scatter_direction := if sd.near_zero then normal else sd
      some (color, ⟨p, scatter_direction⟩)

/-- src/metal.rs: `Metal::scatter`.  `sample` as in `lambertianScatter`. -/
def metalScatter (S : SqrtFn) (color : Point) (fuzz : ℚ) (sample : Point) :
    Material :=
  fun r_in p normal _front_face =>
    match r_in.direction.unit S with
    | none => none
    | some ud =>
      let reflected := reflect ud normal
      match sample.unit S with
      | none => none
      | some ruv => some (color, ⟨p, reflected + fuzz * ruv⟩)

/-- src/dielectric.rs: `Dielectric::reflectance` (Schlick). -/
def reflectance (cosine ref_idx : ℚ) : ℚ :=
  let r0 := (1 - ref_idx) / (1 + ref_idx)
  let r0 := r0 * r0
  r0 + (1 - r0) * (1 - cosine) ^ 5

/-- src/dielectric.rs: `Dielectric::scatter`.  `xi` is the uniform draw in
`[0,1)` compared against the Schlick reflectance. -/
def dielectricScatter (S : SqrtFn) (ir : ℚ) (xi : ℚ) : Material :=
  fun r_in p normal front_face =>
    let refraction_ratio := if front_face then 1 / ir else ir
    match r_in.direction.unit S with
    | none => none
    | some unit_direction =>
      let cos_theta := min (dot (-unit_direction) normal) 1
      let sin_theta := S.f (1 - cos_theta * cos_theta)
      let direction :=
        if refraction_ratio * sin_theta > 1 ∨ reflectance cos_theta refraction_ratio > xi
        then reflect unit_direction normal
        else refract S unit_direction normal refraction_ratio
      some (⟨1, 1, 1⟩, ⟨p, direction⟩)

/-- The interval `Interval::new_set_interval(0.001, f64::MAX)` built by the
integrator for every scene query. -/
def rcInterval : Interval := Interval.new_set_interval (1 / 1000) f64max

/-- src/camera.rs: `Camera::ray_color`.  Result `none` encodes a panic:
the background branch unwraps `ray.direction().unit()`. -/
def rayColor (S : SqrtFn) : Ray → ℕ → HittableList → Option Point
  | _, 0, _ => some Point.default
  | r, depth + 1, world =>
    match listHit world r rcInterval with
    | some record =>
      match record.mat r record.p record.normal record.front_face with
      | some (attenuation, scattered) =>
        (rayColor S scattered depth world).map (fun c => c * attenuation)
      | none => some ⟨0, 0, 0⟩
    | none =>
      match r.direction.unit S with
      | none => none
      | some unit_direction =>
        let a := (1 / 2 : ℚ) * (unit_direction.y + 1)
        some ((1 - a) * (⟨1, 1, 1⟩ : Point) + a * (⟨1 / 2, 7 / 10, 1⟩ : Point))

/-- src/camera.rs: `CameraInit`. -/
structure CameraInit where
  vfov : ℚ
  lookfrom : Point
  lookat : Point
  vup : Point
  focus_dist : ℚ
  defocus_angle : ℚ
  samples_per_pixel : ℕ

/-- `CameraInit::default()` — all fields zero. -/
def CameraInit.default : CameraInit :=
  ⟨0, Point.default, Point.default, Point.default, 0, 0, 0⟩

/-- Rust's saturating `f64 as u32` cast: truncate toward zero, clamp to
`[0, u32::MAX]`. -/
def rustCastU32 (x : ℚ) : ℕ :=
  if x ≤ 0 then 0 else min (Int.toNat ⌊x⌋) (2 ^ 32 - 1)

/-- src/camera.rs: the `Camera` state computed by `Camera::new`. -/
structure Camera where
  image_width : ℕ
  image_height : ℕ
  center : Point
  pixel00_loc : Point
  pixel_delta_u : Point
  pixel_delta_v : Point
  samples_per_pixel : ℕ
  max_depth : ℕ
  defocus_angle : ℚ
  defocus_disk_u : Point
  defocus_disk_v : Point

/-- src/camera.rs lines 46-48: `w = (lookfrom - lookat).unit().unwrap_or_default()`. -/
def cameraW (S : SqrtFn) (ip : CameraInit) : Point :=
  ((ip.lookfrom - ip.lookat).unit S).getD Point.default

/-- src/camera.rs line 49: `u = cross(vup, w)` (no normalization in the source). -/
def cameraU (S : SqrtFn) (ip : CameraInit) : Point :=
  cross ip.vup (cameraW S ip)

/-- src/camera.rs line 50: `v = cross(w, u)`. -/
def cameraV (S : SqrtFn) (ip : CameraInit) : Point :=
  cross (cameraW S ip) (cameraU S ip)

/-- src/camera.rs: `Camera::new`.  `T d` stands for `tan(d * pi / 360)`,
i.e. the tangent of half the angle `d` given in degrees; it abstracts both
`(Deg::new(vfov).rad() / 2.0).tan()` and
`Deg::new(defocus_angle / 2.0).rad().tan()` (the radian conversion is
linear).  Result `none` encodes a panic: the source unwraps the pixel-delta
and half-viewport divisions. -/
def camNew (S : SqrtFn) (T : ℚ → ℚ) (aspect_ratio : ℚ) (image_width : ℕ)
    (init_params : CameraInit) : Option Camera := do
  let image_height := max (rustCastU32 ((image_width : ℚ) / aspect_ratio)) 1
  let camera_center := init_params.lookfrom
  let h := T init_params.vfov
  let viewport_height := 2 * h * init_params.focus_dist
  let viewport_width := viewport_height * ((image_width : ℚ) / (image_height : ℚ))
  let w := cameraW S init_params
  let u := cameraU S init_params
  let v := cameraV S init_params
  let viewport_u := viewport_width * u
  let viewport_v := (-viewport_height) * v
  let pixel_delta_u ← viewport_u / ((image_width : ℚ))
  let pixel_delta_v ← viewport_v / ((image_height : ℚ))
  let half_u ← viewport_u / (2 : ℚ)
  let half_v ← viewport_v / (2 : ℚ)
  let viewport_upper_left :=
    camera_center - (init_params.focus_dist * w) - half_u - half_v
  let pixel00_loc := viewport_upper_left + (1 / 2 : ℚ) * (pixel_delta_u + pixel_delta_v)
  let defocus_radius := init_params.focus_dist * T init_params.defocus_angle
  some
    { image_width := image_width
      image_height := image_height
      center := camera_center
      pixel00_loc := pixel00_loc
      pixel_delta_u := pixel_delta_u
      pixel_delta_v := pixel_delta_v
      samples_per_pixel := init_params.samples_per_pixel
      max_depth := 50
      defocus_angle := init_params.defocus_angle
      defocus_disk_u := u * defocus_radius
      defocus_disk_v := v * defocus_radius }

/-- Rust's `f64::clamp(lo, hi)` on a finite value. -/
def rustClamp (x lo hi : ℚ) : ℚ := if x < lo then lo else if x > hi then hi else x

/-- Rust's saturating `f64 as u8` cast on a finite value. -/
def rustCastU8 (x : ℚ) : ℕ := if x ≤ 0 then 0 else min (Int.toNat ⌊x⌋) 255

/-- src/point.rs: one channel of `From<Point> for image::Rgb<u8>`:
`(component.clamp(0.0, 1.0) * 255.0) as u8`. -/
def rgbChan (v : ℚ) : ℕ := rustCastU8 (rustClamp v 0 1 * 255)

/-- src/point.rs: `From<Point> for image::Rgb<u8>` (finite components). -/
def rgbFrom (p : Point) : ℕ × ℕ × ℕ := (rgbChan p.x, rgbChan p.y, rgbChan p.z)

/-- src/camera.rs lines 95-105: the per-pixel body of `Camera::render`:
sum `samples_per_pixel` traced rays, divide by the sample count
(`unwrap_or_default` on the fallible division), take the componentwise
square root, and convert to an 8-bit pixel.  The sampled rays are passed
in as a list (randomness externalized); `none` encodes a panic inside
`ray_color`. -/
def pixelColor (S : SqrtFn) (world : HittableList) (max_depth : ℕ)
    (samples_per_pixel : ℕ) (rays : List Ray) : Option (ℕ × ℕ × ℕ) := do
  let colors ← rays.mapM (fun ray => rayColor S ray max_depth world)
  let sum := colors.foldl (fun acc point => acc + point) (⟨0, 0, 0⟩ : Point)
  let sum := (sum / ((samples_per_pixel : ℚ))).getD Point.default
  some (rgbFrom (sum.sqrtP S))

/-- src/point.rs: `Point::random_in_unit_sphere`, fuel-indexed view of the
rejection loop.  `s` is the stream of draws `random_between(-1,1)` taken
three at a time, `i` the index of the next draw, and the result is `none`
when no draw among the next `fuel` is accepted. -/
def sphereLoopAux (s : ℕ → Point) : ℕ → ℕ → Option Point
  | _, 0 => none
  | i, fuel + 1 =>
    let p := s i
    if p.len_squared < 1 then some p else sphereLoopAux s (i + 1) fuel

/-- src/point.rs: `Point::random_in_unit_disk`, fuel-indexed view of the
rejection loop over `(x, y)` draws with `z = 0`. -/
def diskLoopAux (s : ℕ → ℚ × ℚ) : ℕ → ℕ → Option Point
  | _, 0 => none
  | i, fuel + 1 =>
    let p : Point := ⟨(s i).1, (s i).2, 0⟩
    if p.len_squared < 1 then some p else diskLoopAux s (i + 1) fuel

/-- An `f64` value as seen by the color-to-byte conversion: NaN, the two
infinities, or a finite value (modelled exactly). -/
inductive F where
  | nan : F
  | inf : F
  | neginf : F
  | val (q : ℚ) : F
deriving DecidableEq

/-- Rust `f64::clamp(0.0, 1.0)` with full IEEE semantics: both
comparisons are false on NaN, so NaN passes through. -/
def fClamp01 : F → F
  | .nan => .nan
  | .inf => .val 1
  | .neginf => .val 0
  | .val q => .val (rustClamp q 0 1)

/-- Multiplication by the finite constant `255.0`: NaN and infinities are
preserved, finite values are scaled. -/
def fMul255 : F → F
  | .nan => .nan
  | .inf => .inf
  | .neginf => .neginf
  | .val q => .val (q * 255)

/-- Rust's saturating `f64 as u8` cast with full IEEE semantics: NaN goes
to 0, -inf saturates to 0, +inf saturates to 255, finite values truncate
toward zero and saturate. -/
def fCastU8 : F → ℕ
  | .nan => 0
  | .inf => 255
  | .neginf => 0
  | .val q => rustCastU8 q

/-- src/point.rs: one channel of `From<Point> for image::Rgb<u8>` over the
IEEE value model: `(component.clamp(0.0, 1.0) * 255.0) as u8`. -/
def fChan (c : F) : ℕ := fCastU8 (fMul255 (fClamp01 c))

/-- A color with arbitrary `f64` components (including NaN/inf). -/
structure FPoint where
  x : F
  y : F
  z : F

/-- src/point.rs: `From<Point> for image::Rgb<u8>` over the IEEE value
model. -/
def fRgbFrom (p : FPoint) : ℕ × ℕ × ℕ := (fChan p.x, fChan p.y, fChan p.z)

/-- Stated from the spec's words, for comparison with the source-derived
pipeline: one 8-bit channel as "clamping it to [0,1], scaling by 255, and
truncating (not rounding)". -/
def specChan (v : ℚ) : ℕ := Int.toNat ⌊max 0 (min v 1) * 255⌋

/-- Stated from the spec's words, for comparison with the source-derived
pipeline: "taking the arithmetic mean of the resulting linear colors,
applying a componentwise square root, and then mapping each component to
an 8-bit channel". -/
def specPixelColor (S : SqrtFn) (colors : List Point) (spp : ℕ) : ℕ × ℕ × ℕ :=
  let mean := ((1 : ℚ) / (spp : ℚ)) * (colors.foldl (fun a b => a + b) (⟨0, 0, 0⟩ : Point))
  let toned := mean.sqrtP S
  (specChan toned.x, specChan toned.y, specChan toned.z)

/-- The spec's contract for a single `Hittable` member over a fixed ray:
`ts` is the set of candidate hit distances of the member for that ray, and
`hit` returns the smallest candidate strictly inside the queried interval,
or nothing when no candidate qualifies. -/
def MemberContract (h : Hittable) (r : Ray) (ts : List ℚ) : Prop :=
  (∀ (I : Interval) (rec : HitRecord), h r I = some rec →
      rec.t ∈ ts ∧ I.surrounds rec.t = true ∧
      ∀ t' ∈ ts, I.surrounds t' = true → rec.t ≤ t') ∧
  (∀ I : Interval, h r I = none → ∀ t' ∈ ts, I.surrounds t' = false)

/-- The invariant carried by the `HittableList::hit` fold: over the members
seen so far, the accumulator is the closest hit strictly inside `ray_t`
when it is `some`, and there is no qualifying hit when it is `none`. -/
def FoldInv (ray_t : Interval) (seen : List (Hittable × List ℚ))
    (acc : Option HitRecord) : Prop :=
  (∀ rec, acc = some rec →
    ray_t.surrounds rec.t = true ∧ (∃ p ∈ seen, rec.t ∈ p.2) ∧
    ∀ p ∈ seen, ∀ t' ∈ p.2, ray_t.surrounds t' = true → rec.t ≤ t') ∧
  (acc = none → ∀ p ∈ seen, ∀ t' ∈ p.2, ray_t.surrounds t' = false)

/-- A constant material used by concrete scenes in the development:
scatters with attenuation (1/2, 1/2, 1/2) and a fixed upward ray. -/
def cMat : Material :=
  fun _r_in _p _normal _ff =>
    some (⟨1 / 2, 1 / 2, 1 / 2⟩, ⟨Point.default, ⟨0, 0, 1⟩⟩)

/-- A concrete hit record at distance 1. -/
def cRec : HitRecord := ⟨Point.default, ⟨0, 0, 1⟩, 1, true, cMat⟩

/-- A member that reports `cRec` for every query. -/
def cMember : Hittable := fun _ _ => some cRec

/-- A fixed ray used by concrete counterexamples. -/
def r0 : Ray := ⟨Point.default, Point.default⟩

/-- A concrete hit record sitting exactly at distance `f64::MAX`. -/
def c2Rec : HitRecord := ⟨Point.default, Point.default, f64max, true, cMat⟩

/-- A contract-satisfying member whose only candidate hit distance is
`f64::MAX`. -/
def c2Member : Hittable :=
  fun _ I => if I.surrounds f64max then some c2Rec else none

/-- A concrete hit record at distance 5. -/
def wRec : HitRecord := ⟨Point.default, Point.default, 5, true, cMat⟩

/-- A contract-satisfying member whose only candidate hit distance is 5. -/
def wMember : Hittable :=
  fun _ I => if I.surrounds 5 then some wRec else none

/-- The single-member scene list paired with its candidate distances. -/
def wPairs : List (Hittable × List ℚ) := [(wMember, [5])]

/-- Camera parameters with `vup` of length 2 and a viewing axis of
length 2: every component rational, all square roots exact. -/
def c7Init : CameraInit := ⟨0, ⟨0, 0, 2⟩, ⟨0, 0, 0⟩, ⟨0, 2, 0⟩, 0, 0, 0⟩

/-- A legal stream of rejection-sampling draws (every component is in
[-1, 1)) on which `random_in_unit_sphere` never accepts. -/
def badStream : ℕ → Point := fun _ => ⟨-1, -1, -1⟩

theorem Point.add_def (a b : Point) :
    a + b = ⟨a.x + b.x, a.y + b.y, a.z + b.z⟩ := rfl

theorem Point.sub_def (a b : Point) :
    a - b = ⟨a.x - b.x, a.y - b.y, a.z - b.z⟩ := rfl

theorem Point.neg_def (a : Point) : -a = ⟨-a.x, -a.y, -a.z⟩ := rfl

theorem Point.mul_def (a b : Point) :
    a * b = ⟨a.x * b.x, a.y * b.y, a.z * b.z⟩ := rfl

theorem Point.smul_def (k : ℚ) (a : Point) :
    k * a = ⟨k * a.x, k * a.y, k * a.z⟩ := rfl

theorem Point.mulk_def (a : Point) (k : ℚ) :
    a * k = ⟨a.x * k, a.y * k, a.z * k⟩ := rfl

theorem Point.div_def (a : Point) (k : ℚ) :
    a / k = if k = 0 then none else some ⟨a.x / k, a.y / k, a.z / k⟩ := rfl

theorem Point.mul_comm (a b : Point) : a * b = b * a := by
  cases a; cases b
  simp only [Point.mul_def, Point.mk.injEq]
  refine ⟨?_, ?_, ?_⟩ <;> ring

theorem Point.len_squared_nonneg (a : Point) : 0 ≤ a.len_squared := by
  rcases a with ⟨ax, ay, az⟩
  simp only [Point.len_squared]
  nlinarith [mul_self_nonneg ax, mul_self_nonneg ay, mul_self_nonneg az]

theorem Point.len_squared_pos (a : Point) (h : a ≠ ⟨0, 0, 0⟩) :
    0 < a.len_squared := by
  rcases a with ⟨ax, ay, az⟩
  rcases lt_or_eq_of_le (Point.len_squared_nonneg ⟨ax, ay, az⟩) with hlt | heq
  · exact hlt
  · exfalso
    apply h
    unfold Point.len_squared at heq
    simp only at heq
    have hx : ax = 0 := by nlinarith [mul_self_nonneg ax, mul_self_nonneg ay, mul_self_nonneg az]
    have hy : ay = 0 := by nlinarith [mul_self_nonneg ax, mul_self_nonneg ay, mul_self_nonneg az]
    have hz : az = 0 := by nlinarith [mul_self_nonneg ax, mul_self_nonneg ay, mul_self_nonneg az]
    simp [hx, hy, hz]

/-- A vector of zero squared length normalizes to nothing. -/
theorem Point.unit_of_len_squared_zero (S : SqrtFn) (a : Point)
    (h : a.len_squared = 0) : a.unit S = none := by
  unfold Point.unit Point.len
  rw [h, S.map_zero, Point.div_def, if_pos rfl]

/-- A vector of nonzero squared length normalizes successfully. -/
theorem Point.unit_of_len_squared_ne_zero (S : SqrtFn) (a : Point)
    (h : a.len_squared ≠ 0) :
    a.unit S = some ⟨a.x / a.len S, a.y / a.len S, a.z / a.len S⟩ := by
  have hpos : 0 < a.len_squared := lt_of_le_of_ne (Point.len_squared_nonneg a) (Ne.symm h)
  have hlen : 0 < a.len S := S.map_pos _ hpos
  unfold Point.unit
  rw [Point.div_def, if_neg (ne_of_gt hlen)]

theorem natSqrtLin_bounds (n : ℕ) :
    natSqrtLin n * natSqrtLin n ≤ n ∧ n < (natSqrtLin n + 1) * (natSqrtLin n + 1) := by
  induction n with
  | zero => simp [natSqrtLin]
  | succ n ih =>
    simp only [natSqrtLin]
    by_cases h : (natSqrtLin n + 1) * (natSqrtLin n + 1) ≤ n + 1
    · rw [if_pos h]
      refine ⟨h, ?_⟩
      nlinarith [ih.2]
    · rw [if_neg h]
      exact ⟨ih.1.trans (Nat.le_succ n), Nat.lt_of_not_le h⟩

theorem natSqrtLin_sq (n : ℕ) : natSqrtLin (n * n) = n := by
  have h := natSqrtLin_bounds (n * n)
  have h1 : natSqrtLin (n * n) ≤ n := by nlinarith [h.1]
  have h2 : n ≤ natSqrtLin (n * n) := by nlinarith [h.2]
  omega

/-- `ratSqrtFun` is the exact square root on perfect squares. -/
theorem ratSqrtFun_eval (q : ℚ) (n : ℕ) (hq : 0 < q)
    (hnum : q.num = (n : ℤ) * n) (hden : q.den = 1) : ratSqrtFun q = n := by
  simp only [ratSqrtFun]
  rw [if_neg (not_le.mpr hq), hnum, hden]
  have ht : ((n : ℤ) * n).toNat = n * n := by
    rw [← Nat.cast_mul, Int.toNat_natCast]
  have hone : natSqrtLin 1 = 1 := by decide
  rw [ht, natSqrtLin_sq, hone]
  rw [if_pos ⟨rfl, rfl⟩]
  norm_num

theorem f64max_pos : 0 < f64max := by norm_num [f64max]

theorem f64min_lt_f64max : f64min < f64max := by
  have := f64max_pos
  unfold f64min
  linarith

theorem dot_cross_left (a b : Point) : dot (cross a b) a = 0 := by
  cases a; cases b; simp only [dot, cross]; ring

theorem dot_cross_right (a b : Point) : dot (cross a b) b = 0 := by
  cases a; cases b; simp only [dot, cross]; ring

theorem rustCastU8_le (x : ℚ) : rustCastU8 x ≤ 255 := by
  unfold rustCastU8
  split
  · exact Nat.zero_le _
  · exact min_le_right _ _

theorem fChan_le (c : F) : fChan c ≤ 255 := by
  cases c with
  | nan => norm_num [fChan, fClamp01, fMul255, fCastU8]
  | inf => exact rustCastU8_le _
  | neginf => norm_num [fChan, fClamp01, fMul255, fCastU8, rustCastU8]
  | val q => exact rustCastU8_le _

/-- C10: the conversion from a color to an 8-bit RGB pixel is total over
the full `f64` value model: every component, including NaN and the
infinities, yields a channel in [0, 255], and a NaN component yields
channel 0 (clamp propagates NaN and the float-to-u8 cast sends NaN to 0). -/
theorem C10_rgb_total (p : FPoint) :
    (fRgbFrom p).1 ≤ 255 ∧ (fRgbFrom p).2.1 ≤ 255 ∧ (fRgbFrom p).2.2 ≤ 255 ∧
    (p.x = F.nan → (fRgbFrom p).1 = 0) ∧
    (p.y = F.nan → (fRgbFrom p).2.1 = 0) ∧
    (p.z = F.nan → (fRgbFrom p).2.2 = 0) := by
  refine ⟨fChan_le p.x, fChan_le p.y, fChan_le p.z, ?_, ?_, ?_⟩ <;>
    · intro h
      simp [fRgbFrom, h, fChan, fClamp01, fMul255, fCastU8]

/-- C10 witness: a color with a NaN, a large finite, and an infinite
component converts to a valid pixel with the NaN channel black. -/
theorem C10_witness :
    (fRgbFrom ⟨F.nan, F.val 2, F.inf⟩).1 = 0 ∧
    (fRgbFrom ⟨F.nan, F.val 2, F.inf⟩).2.1 ≤ 255 :=
  ⟨(C10_rgb_total ⟨F.nan, F.val 2, F.inf⟩).2.2.2.1 rfl,
   (C10_rgb_total ⟨F.nan, F.val 2, F.inf⟩).2.1⟩

/-- C4 counterexample: `Dielectric::scatter` does NOT always return `Some`:
for an incoming ray with a zero-length direction the `?` on
`r_in.direction().unit()` propagates `None` (absorption), refuting
"always scatters". -/
theorem C4_cex :
    dielectricScatter ratSqrt (3 / 2) (1 / 2) ⟨⟨0, 0, 0⟩, ⟨0, 0, 0⟩⟩
      ⟨0, 0, 0⟩ ⟨0, 0, 1⟩ true = none := by
  unfold dielectricScatter
  rw [Point.unit_of_len_squared_zero ratSqrt _ (by norm_num [Point.len_squared])]

/-- C4 (amended): for every incoming ray whose direction has nonzero
squared length, `Dielectric::scatter` returns `Some`, and the attenuation
is exactly (1, 1, 1). -/
theorem C4_dielectric_always_scatters (S : SqrtFn) (ir xi : ℚ) (r_in : Ray)
    (p normal : Point) (front_face : Bool)
    (h : r_in.direction.len_squared ≠ 0) :
    ∃ scattered : Ray,
      dielectricScatter S ir xi r_in p normal front_face =
        some (⟨1, 1, 1⟩, scattered) := by
  unfold dielectricScatter
  rw [Point.unit_of_len_squared_ne_zero S _ h]
  exact ⟨_, rfl⟩

/-- `ratSqrtFun` agrees with IEEE sqrt at 1. -/
theorem ratSqrtFun_one : ratSqrtFun 1 = 1 := by
  have h := ratSqrtFun_eval 1 1 (by norm_num) (by norm_num) (by norm_num)
  norm_num at h
  exact h

/-- `ratSqrtFun` agrees with IEEE sqrt at 4. -/
theorem ratSqrtFun_four : ratSqrtFun 4 = 2 := by
  have h := ratSqrtFun_eval 4 2 (by norm_num) (by norm_num) (by norm_num)
  norm_num at h
  exact h

/-- `Camera::new` reaches its final expression (does not panic) whenever
the image width is nonzero: both unwrapped pixel-delta divisions have
nonzero divisors. -/
theorem camNew_succeeds (S : SqrtFn) (T : ℚ → ℚ) (aspect_ratio : ℚ)
    (image_width : ℕ) (ip : CameraInit) (h : image_width ≠ 0) :
    ∃ cam, camNew S T aspect_ratio image_width ip = some cam := by
  simp only [camNew]
  have h1 : ((image_width : ℕ) : ℚ) ≠ 0 := Nat.cast_ne_zero.mpr h
  have h2 : ((max (rustCastU32 ((image_width : ℚ) / aspect_ratio)) 1 : ℕ) : ℚ) ≠ 0 := by
    have hm : max (rustCastU32 ((image_width : ℚ) / aspect_ratio)) 1 ≠ 0 := by
      have := le_max_right (rustCastU32 ((image_width : ℚ) / aspect_ratio)) 1
      omega
    exact_mod_cast hm
  rw [Point.div_def, if_neg h1, Point.div_def, if_neg h2,
    Point.div_def, if_neg (two_ne_zero), Point.div_def, if_neg (two_ne_zero)]
  exact ⟨_, rfl⟩

/-- The `image_height` stored by a successfully constructed camera is
exactly the source expression `max((width / aspect_ratio) as u32, 1)`. -/
theorem camNew_image_height (S : SqrtFn) (T : ℚ → ℚ) (aspect_ratio : ℚ)
    (image_width : ℕ) (ip : CameraInit) (cam : Camera)
    (h : camNew S T aspect_ratio image_width ip = some cam) :
    cam.image_height = max (rustCastU32 ((image_width : ℚ) / aspect_ratio)) 1 := by
  simp only [camNew, Option.bind_eq_bind, Option.bind_eq_some] at h
  obtain ⟨pdu, _, pdv, _, hu, _, hv, _, hcam⟩ := h
  rw [← Option.some.inj hcam]

/-- The integrator's query interval does not collapse: it is the plain
`Some(0.001, f64::MAX)` encoding. -/
theorem new_set_interval_rc :
    Interval.new_set_interval (1 / 1000) f64max = Interval.Some (1 / 1000) f64max := by
  unfold Interval.new_set_interval
  have h1 : ¬((1 : ℚ) / 1000 = f64min ∧ f64max = f64max) := by
    rintro ⟨h, _⟩
    norm_num [f64min, f64max] at h
  have h2 : ¬((1 : ℚ) / 1000 = f64max ∧ f64max = f64min) := by
    rintro ⟨h, _⟩
    norm_num [f64max] at h
  rw [if_neg h1, if_neg h2]

/-- C5 counterexample: the claim "surrounds(x) is true for every
x > 0.001" fails at x = f64::MAX, which is greater than 0.001 yet not
strictly surrounded (the test is strict at the upper bound too). -/
theorem C5_cex :
    (Interval.new_set_interval (1 / 1000) f64max).surrounds f64max = false ∧
    (1 / 1000 : ℚ) < f64max := by
  constructor
  · rw [new_set_interval_rc]
    simp only [Interval.surrounds, decide_eq_false_iff_not]
    rintro ⟨_, h⟩
    exact lt_irrefl _ h
  · norm_num [f64max]

/-- C5 (amended): `Interval::new_set_interval(0.001, f64::MAX).surrounds x`
is true for every x with 0.001 < x < f64::MAX, false for every x ≤ 0.001,
and also false for every x ≥ f64::MAX; `surrounds` is the strict test
min < x < max, Universe always contains, Empty never contains. -/
theorem C5_surrounds_strict (x : ℚ) :
    (1 / 1000 < x → x < f64max →
      (Interval.new_set_interval (1 / 1000) f64max).surrounds x = true) ∧
    (x ≤ 1 / 1000 →
      (Interval.new_set_interval (1 / 1000) f64max).surrounds x = false) ∧
    (f64max ≤ x →
      (Interval.new_set_interval (1 / 1000) f64max).surrounds x = false) ∧
    Interval.Universe.surrounds x = true ∧
    Interval.Empty.surrounds x = false := by
  rw [new_set_interval_rc]
  refine ⟨?_, ?_, ?_, rfl, rfl⟩
  · intro h1 h2
    simp only [Interval.surrounds, decide_eq_true_eq]
    exact ⟨h1, h2⟩
  · intro h
    simp only [Interval.surrounds, decide_eq_false_iff_not]
    rintro ⟨h1, _⟩
    linarith
  · intro h
    simp only [Interval.surrounds, decide_eq_false_iff_not]
    rintro ⟨_, h2⟩
    linarith

/-- C5 witness: x = 1 is strictly surrounded. -/
theorem C5_witness :
    (Interval.new_set_interval (1 / 1000) f64max).surrounds 1 = true :=
  (C5_surrounds_strict 1).1 (by norm_num) (by norm_num [f64max])

/-- C1: the integrator returns black at depth 0; at positive depth, when
the scene reports a hit (queried with the interval built from 0.001 and
f64::MAX) whose material scatters, it returns the componentwise product of
the attenuation with the color of the scattered ray at depth - 1; and when
the material absorbs, it returns black. -/
theorem C1_ray_color (S : SqrtFn) (world : HittableList) :
    (∀ r : Ray, rayColor S r 0 world = some ⟨0, 0, 0⟩) ∧
    (∀ (r : Ray) (depth : ℕ) (record : HitRecord) (attenuation : Point)
        (scattered : Ray) (c : Point),
      listHit world r rcInterval = some record →
      record.mat r record.p record.normal record.front_face =
        some (attenuation, scattered) →
      rayColor S scattered depth world = some c →
      rayColor S r (depth + 1) world = some (attenuation * c)) ∧
    (∀ (r : Ray) (depth : ℕ) (record : HitRecord),
      listHit world r rcInterval = some record →
      record.mat r record.p record.normal record.front_face = none →
      rayColor S r (depth + 1) world = some ⟨0, 0, 0⟩) := by
  refine ⟨fun r => rfl, ?_, ?_⟩
  · intro r depth record attenuation scattered c hhit hscat hrec
    simp only [rayColor, hhit, hscat, hrec, Option.map_some']
    rw [Point.mul_comm]
  · intro r depth record hhit hscat
    simp only [rayColor, hhit, hscat]

/-- C1 witness: a one-member scene whose material scatters with
attenuation (1/2, 1/2, 1/2); at depth 1 the scattered ray is cut off at
depth 0 (black), so the pixel gets the product of the attenuation with
black. -/
theorem C1_witness :
    rayColor ratSqrt ⟨Point.default, ⟨0, 0, 1⟩⟩ 1 [cMember] =
      some ((⟨1 / 2, 1 / 2, 1 / 2⟩ : Point) * ⟨0, 0, 0⟩) :=
  (C1_ray_color ratSqrt [cMember]).2.1 ⟨Point.default, ⟨0, 0, 1⟩⟩ 0 cRec
    ⟨1 / 2, 1 / 2, 1 / 2⟩ ⟨Point.default, ⟨0, 0, 1⟩⟩ ⟨0, 0, 0⟩ rfl rfl rfl

/-- C3 counterexample: a ray whose direction has zero length, traced
against an empty scene, reaches the background-gradient branch, where the
source unwraps `ray.direction().unit()`; the normalization is absent and
the unwrap aborts the process (modelled as the `none` result), refuting
"no such input ever causes a process abort". -/
theorem C3_cex :
    (⟨0, 0, 0⟩ : Point).len_squared = 0 ∧
    rayColor ratSqrt ⟨⟨0, 0, 0⟩, ⟨0, 0, 0⟩⟩ 1 ([] : HittableList) = none := by
  refine ⟨by norm_num [Point.len_squared], ?_⟩
  have hbg : (⟨0, 0, 0⟩ : Point).unit ratSqrt = none :=
    Point.unit_of_len_squared_zero _ _ (by norm_num [Point.len_squared])
  simp [rayColor, listHit, hbg]

/-- C3 (amended): degenerate geometry does yield absent values that
callers propagate — zero-length normalization yields no result, a
zero-radius sphere yields no hit, a zero-length incoming direction yields
no scatter in the dielectric and metal materials, a zero-length rejection
sample yields no scatter in the Lambertian material, and a degenerate
camera axis falls back to the default vector — but the integrator's
background-gradient branch is the exception: there the unwrapped
normalization of a zero-length ray direction aborts (panics) instead of
propagating. -/
theorem C3_degenerate_handling :
    (∀ (S : SqrtFn) (v : Point), v.len_squared = 0 → v.unit S = none) ∧
    (∀ (S : SqrtFn) (sph : Sphere) (r : Ray) (ray_t : Interval),
      sph.radius = 0 → sphereHit S sph r ray_t = none) ∧
    (∀ (S : SqrtFn) (ir xi : ℚ) (r_in : Ray) (p normal : Point) (ff : Bool),
      r_in.direction.len_squared = 0 →
      dielectricScatter S ir xi r_in p normal ff = none) ∧
    (∀ (S : SqrtFn) (color : Point) (fuzz : ℚ) (sample : Point) (r_in : Ray)
        (p normal : Point) (ff : Bool),
      r_in.direction.len_squared = 0 →
      metalScatter S color fuzz sample r_in p normal ff = none) ∧
    (∀ (S : SqrtFn) (color sample : Point) (r_in : Ray) (p normal : Point)
        (ff : Bool),
      sample.len_squared = 0 →
      lambertianScatter S color sample r_in p normal ff = none) ∧
    (∀ (S : SqrtFn) (ip : CameraInit), ip.lookfrom = ip.lookat →
      cameraW S ip = Point.default) ∧
    (∀ (S : SqrtFn) (r : Ray) (depth : ℕ) (world : HittableList),
      r.direction.len_squared = 0 → listHit world r rcInterval = none →
      rayColor S r (depth + 1) world = none) := by
  refine ⟨Point.unit_of_len_squared_zero, ?_, ?_, ?_, ?_, ?_, ?_⟩
  · intro S sph r ray_t h
    simp [sphereHit, h, Point.div_def]
  · intro S ir xi r_in p normal ff h
    unfold dielectricScatter
    rw [Point.unit_of_len_squared_zero S _ h]
  · intro S color fuzz sample r_in p normal ff h
    unfold metalScatter
    rw [Point.unit_of_len_squared_zero S _ h]
  · intro S color sample r_in p normal ff h
    unfold lambertianScatter
    rw [Point.unit_of_len_squared_zero S _ h]
  · intro S ip h
    unfold cameraW
    rw [h]
    have hz : ip.lookat - ip.lookat = (⟨0, 0, 0⟩ : Point) := by
      simp [Point.sub_def]
    rw [hz, Point.unit_of_len_squared_zero S _ (by norm_num [Point.len_squared])]
    rfl
  · intro S r depth world h hlist
    simp only [rayColor, hlist]
    rw [Point.unit_of_len_squared_zero S _ h]

theorem Point.sub_eq_zero (a b : Point) (h : a - b = ⟨0, 0, 0⟩) : a = b := by
  rcases a with ⟨ax, ay, az⟩
  rcases b with ⟨bx, b2, bz⟩
  simp only [Point.sub_def, Point.mk.injEq] at h ⊢
  refine ⟨?_, ?_, ?_⟩ <;> linarith [h.1, h.2.1, h.2.2]

/-- The `max_depth` stored by a successfully constructed camera is 50. -/
theorem camNew_max_depth (S : SqrtFn) (T : ℚ → ℚ) (aspect_ratio : ℚ)
    (image_width : ℕ) (ip : CameraInit) (cam : Camera)
    (h : camNew S T aspect_ratio image_width ip = some cam) :
    cam.max_depth = 50 := by
  simp only [camNew, Option.bind_eq_bind, Option.bind_eq_some] at h
  obtain ⟨pdu, _, pdv, _, hu, _, hv, _, hcam⟩ := h
  rw [← Option.some.inj hcam]

/-- C6 counterexample: at aspect_ratio 10 and image_width 29 the source
computes image_height 2 (the `as u32` cast truncates 2.9), while the
claimed rounding to the nearest integer gives 3. -/
theorem C6_cex :
    (camNew ratSqrt (fun _ => 1) 10 29 CameraInit.default).map Camera.image_height
        = some 2 ∧
    max 1 (Int.toNat (round ((29 : ℚ) / 10))) = 3 := by
  constructor
  · obtain ⟨cam, hcam⟩ :=
      camNew_succeeds ratSqrt (fun _ => 1) 10 29 CameraInit.default (by norm_num)
    rw [hcam, Option.map_some']
    rw [camNew_image_height _ _ _ _ _ _ hcam]
    norm_num [rustCastU32]
    rfl
  · rw [round_eq]
    norm_num
    rfl

/-- C6 (amended): for aspect_ratio > 0 (and a quotient that fits in u32),
`Camera::new` computes image_height as the maximum of 1 and the
TRUNCATION toward zero of image_width / aspect_ratio — the `as u32` cast
truncates; it does not round to nearest. -/
theorem C6_image_height (S : SqrtFn) (T : ℚ → ℚ) (aspect_ratio : ℚ)
    (image_width : ℕ) (ip : CameraInit) (cam : Camera)
    (ha : 0 < aspect_ratio)
    (hfit : (image_width : ℚ) / aspect_ratio < 2 ^ 32)
    (hcam : camNew S T aspect_ratio image_width ip = some cam) :
    cam.image_height = max 1 (Int.toNat ⌊(image_width : ℚ) / aspect_ratio⌋) := by
  rw [camNew_image_height S T aspect_ratio image_width ip cam hcam, Nat.max_comm]
  congr 1
  unfold rustCastU32
  have hq : 0 ≤ (image_width : ℚ) / aspect_ratio := by positivity
  rcases eq_or_lt_of_le hq with heq | hlt
  · rw [if_pos (le_of_eq heq.symm), ← heq]
    norm_num
  · rw [if_neg (not_le.mpr hlt)]
    have hfl : ⌊(image_width : ℚ) / aspect_ratio⌋ < 2 ^ 32 := by
      apply Int.floor_lt.mpr
      push_cast
      exact hfit
    have h0 : 0 ≤ ⌊(image_width : ℚ) / aspect_ratio⌋ := Int.floor_nonneg.mpr hq
    have h32 : ⌊(image_width : ℚ) / aspect_ratio⌋ < 4294967296 := by
      have he : ((2 : ℤ) ^ 32) = 4294967296 := by norm_num
      rw [← he]
      exact hfl
    apply min_eq_left
    norm_num
    omega

/-- C6 witness: at aspect_ratio 10 and image_width 29 the stored height is
the clamped truncation. -/
theorem C6_witness :
    ∃ cam : Camera,
      camNew ratSqrt (fun _ => 1) 10 29 CameraInit.default = some cam ∧
      cam.image_height = max 1 (Int.toNat ⌊((29 : ℕ) : ℚ) / 10⌋) := by
  obtain ⟨cam, hcam⟩ :=
    camNew_succeeds ratSqrt (fun _ => 1) 10 29 CameraInit.default (by norm_num)
  exact ⟨cam, hcam,
    C6_image_height ratSqrt (fun _ => 1) 10 29 CameraInit.default cam
      (by norm_num) (by norm_num) hcam⟩

/-- C7 counterexample: with vup = (0,2,0), lookfrom = (0,0,2),
lookat = (0,0,0) the source's u is cross(vup, w) = (2,0,0) — not
normalized: the claimed normalize(cross(vup, w)) is (1,0,0), and u has
squared length 4, so the basis is not orthonormal. -/
theorem C7_cex :
    cameraU ratSqrt c7Init = ⟨2, 0, 0⟩ ∧
    (cross c7Init.vup (cameraW ratSqrt c7Init)).unit ratSqrt = some ⟨1, 0, 0⟩ ∧
    dot (cameraU ratSqrt c7Init) (cameraU ratSqrt c7Init) ≠ 1 := by
  have h4 : ratSqrtFun 4 = 2 := ratSqrtFun_four
  have hw : (c7Init.lookfrom - c7Init.lookat).unit ratSqrt = some ⟨0, 0, 1⟩ := by
    rw [Point.unit_of_len_squared_ne_zero ratSqrt _
      (by norm_num [c7Init, Point.sub_def, Point.len_squared])]
    norm_num [c7Init, Point.sub_def, Point.len, Point.len_squared, ratSqrt, h4]
  have hwc : cameraW ratSqrt c7Init = ⟨0, 0, 1⟩ := by
    unfold cameraW
    rw [hw]
    rfl
  have hu : cameraU ratSqrt c7Init = ⟨2, 0, 0⟩ := by
    unfold cameraU
    rw [hwc]
    norm_num [c7Init, cross]
  refine ⟨hu, ?_, ?_⟩
  · rw [hwc]
    have hc : cross c7Init.vup ⟨0, 0, 1⟩ = ⟨2, 0, 0⟩ := by
      norm_num [c7Init, cross]
    rw [hc, Point.unit_of_len_squared_ne_zero ratSqrt _
      (by norm_num [Point.len_squared])]
    norm_num [Point.len, Point.len_squared, ratSqrt, h4]
  · rw [hu]
    norm_num [dot]

/-- C7 (amended): for lookfrom ≠ lookat the basis is
w = normalize(lookfrom - lookat), u = cross(vup, w) WITHOUT
normalization, v = cross(w, u); the three vectors are pairwise orthogonal
but not in general orthonormal (u is not normalized in the source). -/
theorem C7_camera_basis (S : SqrtFn) (ip : CameraInit)
    (h : ip.lookfrom ≠ ip.lookat) :
    (∃ wv, (ip.lookfrom - ip.lookat).unit S = some wv ∧ cameraW S ip = wv) ∧
    cameraU S ip = cross ip.vup (cameraW S ip) ∧
    cameraV S ip = cross (cameraW S ip) (cameraU S ip) ∧
    dot (cameraU S ip) (cameraW S ip) = 0 ∧
    dot (cameraV S ip) (cameraW S ip) = 0 ∧
    dot (cameraV S ip) (cameraU S ip) = 0 := by
  have hdiff : ip.lookfrom - ip.lookat ≠ (⟨0, 0, 0⟩ : Point) := by
    intro hc
    exact h (Point.sub_eq_zero _ _ hc)
  have hne : (ip.lookfrom - ip.lookat).len_squared ≠ 0 :=
    ne_of_gt (Point.len_squared_pos _ hdiff)
  have hu := Point.unit_of_len_squared_ne_zero S _ hne
  refine ⟨⟨_, hu, ?_⟩, rfl, rfl, ?_, ?_, ?_⟩
  · unfold cameraW
    rw [hu]
    rfl
  · exact dot_cross_right ip.vup (cameraW S ip)
  · exact dot_cross_left (cameraW S ip) (cameraU S ip)
  · exact dot_cross_right (cameraW S ip) (cameraU S ip)

/-- C7 witness: the amended basis facts at a concrete camera setup. -/
theorem C7_witness :
    (∃ wv, (c7Init.lookfrom - c7Init.lookat).unit ratSqrt = some wv ∧
      cameraW ratSqrt c7Init = wv) ∧
    cameraU ratSqrt c7Init = cross c7Init.vup (cameraW ratSqrt c7Init) ∧
    cameraV ratSqrt c7Init =
      cross (cameraW ratSqrt c7Init) (cameraU ratSqrt c7Init) ∧
    dot (cameraU ratSqrt c7Init) (cameraW ratSqrt c7Init) = 0 ∧
    dot (cameraV ratSqrt c7Init) (cameraW ratSqrt c7Init) = 0 ∧
    dot (cameraV ratSqrt c7Init) (cameraU ratSqrt c7Init) = 0 :=
  C7_camera_basis ratSqrt c7Init (by
    intro hc
    simp only [c7Init, Point.mk.injEq] at hc
    norm_num at hc)

theorem diskLoopAux_eq_sphereLoopAux (s : ℕ → ℚ × ℚ) :
    ∀ (fuel i : ℕ), diskLoopAux s i fuel =
      sphereLoopAux (fun n => ⟨(s n).1, (s n).2, 0⟩) i fuel := by
  intro fuel
  induction fuel with
  | zero => intro i; rfl
  | succ n ih =>
    intro i
    simp only [diskLoopAux, sphereLoopAux]
    rw [ih]

/-- The rejection loop returns an accepted sample as soon as some draw in
range is accepted. -/
theorem sphereLoopAux_terminates (s : ℕ → Point) :
    ∀ (fuel i : ℕ), (∃ j, j < fuel ∧ (s (i + j)).len_squared < 1) →
      ∃ p, sphereLoopAux s i fuel = some p ∧ p.len_squared < 1 := by
  intro fuel
  induction fuel with
  | zero =>
    intro i hj
    obtain ⟨j, hj0, _⟩ := hj
    omega
  | succ n ih =>
    intro i hj
    by_cases hacc : (s i).len_squared < 1
    · exact ⟨s i, by simp [sphereLoopAux, hacc], hacc⟩
    · obtain ⟨j, hjn, hjacc⟩ := hj
      have hj0 : j ≠ 0 := by
        rintro rfl
        rw [Nat.add_zero] at hjacc
        exact hacc hjacc
      obtain ⟨j2, rfl⟩ : ∃ j2, j = j2 + 1 := ⟨j - 1, by omega⟩
      have hrec := ih (i + 1) ⟨j2, by omega, by
        have he : i + 1 + j2 = i + (j2 + 1) := by omega
        rw [he]
        exact hjacc⟩
      obtain ⟨p, hp, hpl⟩ := hrec
      exact ⟨p, by simp [sphereLoopAux, hacc, hp], hpl⟩

theorem badStream_loop_none : ∀ (fuel i : ℕ),
    sphereLoopAux badStream i fuel = none := by
  intro fuel
  induction fuel with
  | zero => intro i; rfl
  | succ n ih =>
    intro i
    have hno : ¬ (badStream i).len_squared < 1 := by
      norm_num [badStream, Point.len_squared]
    simp only [sphereLoopAux, if_neg hno]
    exact ih (i + 1)

/-- C9 counterexample: the rejection-sampling loop of
`random_in_unit_sphere` does not terminate on every legal draw stream:
the constant stream of draws (-1,-1,-1) (each component in [-1,1)) is
never accepted, so no amount of fuel makes the loop return. -/
theorem C9_cex :
    (∀ n : ℕ, badStream n = ⟨-1, -1, -1⟩ ∧ (-1 : ℚ) ≤ -1 ∧ (-1 : ℚ) < 1) ∧
    ¬ ∃ (fuel : ℕ) (p : Point), sphereLoopAux badStream 0 fuel = some p := by
  refine ⟨fun n => ⟨rfl, le_refl _, by norm_num⟩, ?_⟩
  rintro ⟨fuel, p, hp⟩
  rw [badStream_loop_none fuel 0] at hp
  exact Option.noConfusion hp

/-- C9 (amended): the integrator recursion is depth-bounded — it returns
immediately at depth 0 and the budget stored by `Camera::new` is the fixed
constant 50 — and each rejection-sampling loop terminates on every draw
stream that eventually produces an accepted sample (an almost-sure event
for uniform draws), returning a point of squared length < 1; termination
is not unconditional, as the counterexample stream shows. -/
theorem C9_termination :
    (∀ (S : SqrtFn) (r : Ray) (world : HittableList),
      rayColor S r 0 world = some Point.default) ∧
    (∀ (S : SqrtFn) (T : ℚ → ℚ) (aspect_ratio : ℚ) (image_width : ℕ)
        (ip : CameraInit) (cam : Camera),
      camNew S T aspect_ratio image_width ip = some cam →
      cam.max_depth = 50) ∧
    (∀ (s : ℕ → Point) (i : ℕ), (s i).len_squared < 1 →
      ∃ p, sphereLoopAux s 0 (i + 1) = some p ∧ p.len_squared < 1) ∧
    (∀ (s : ℕ → ℚ × ℚ) (i : ℕ),
      (⟨(s i).1, (s i).2, 0⟩ : Point).len_squared < 1 →
      ∃ p, diskLoopAux s 0 (i + 1) = some p ∧ p.len_squared < 1) := by
  refine ⟨fun S r world => rfl, ?_, ?_, ?_⟩
  · intro S T aspect_ratio image_width ip cam hcam
    exact camNew_max_depth S T aspect_ratio image_width ip cam hcam
  · intro s i hacc
    refine sphereLoopAux_terminates s (i + 1) 0 ⟨i, by omega, ?_⟩
    rw [Nat.zero_add]
    exact hacc
  · intro s i hacc
    rw [diskLoopAux_eq_sphereLoopAux s (i + 1) 0]
    refine sphereLoopAux_terminates _ (i + 1) 0 ⟨i, by omega, ?_⟩
    rw [Nat.zero_add]
    exact hacc

/-- C9 witness: depth 0 returns immediately; a camera stores depth budget
50; an immediately accepted draw ends the loop at once. -/
theorem C9_witness :
    rayColor ratSqrt r0 0 [] = some Point.default ∧
    (∃ cam, camNew ratSqrt (fun _ => 1) 10 29 CameraInit.default = some cam ∧
      cam.max_depth = 50) ∧
    (∃ p, sphereLoopAux (fun _ => ⟨0, 0, 0⟩) 0 1 = some p ∧
      p.len_squared < 1) := by
  refine ⟨C9_termination.1 ratSqrt r0 [], ?_,
    C9_termination.2.2.1 (fun _ => ⟨0, 0, 0⟩) 0 (by norm_num [Point.len_squared])⟩
  obtain ⟨cam, hcam⟩ :=
    camNew_succeeds ratSqrt (fun _ => 1) 10 29 CameraInit.default (by norm_num)
  exact ⟨cam, hcam, C9_termination.2.1 _ _ _ _ _ _ hcam⟩

theorem rustClamp_eq_max_min (v : ℚ) : rustClamp v 0 1 = max 0 (min v 1) := by
  unfold rustClamp
  split_ifs with h1 h2
  · rw [min_eq_left (by linarith), max_eq_left (le_of_lt h1)]
  · rw [min_eq_right (le_of_lt h2), max_eq_right (by norm_num)]
  · rw [min_eq_left (not_lt.mp h2), max_eq_right (not_lt.mp h1)]

theorem rgbChan_eq_specChan (v : ℚ) : rgbChan v = specChan v := by
  unfold rgbChan specChan rustCastU8
  rw [rustClamp_eq_max_min]
  have hc0 : 0 ≤ max 0 (min v 1) := le_max_left _ _
  have hc1 : max 0 (min v 1) ≤ 1 := by
    apply max_le
    · norm_num
    · exact min_le_right _ _
  split_ifs with h
  · have hz : max 0 (min v 1) = 0 := by nlinarith
    rw [hz]
    norm_num
  · have hle : ⌊max 0 (min v 1) * 255⌋ ≤ 255 := by
      have h255 : max 0 (min v 1) * 255 ≤ 255 := by nlinarith
      have := Int.floor_le_floor h255
      simpa using this
    have hge : 0 ≤ ⌊max 0 (min v 1) * 255⌋ := Int.floor_nonneg.mpr (by positivity)
    apply min_eq_left
    omega

/-- C8: each pixel is the arithmetic mean of the traced sample colors,
followed by a componentwise square root, then per channel a clamp to
[0, 1], a scale by 255, and a truncation (never a rounding) to the byte
range — exactly the spec-side pipeline `specPixelColor`. -/
theorem C8_pixel_pipeline (S : SqrtFn) (world : HittableList)
    (max_depth spp : ℕ) (rays : List Ray) (colors : List Point)
    (htrace : rays.mapM (fun ray => rayColor S ray max_depth world) = some colors)
    (hlen : rays.length = spp) (hspp : 0 < spp) :
    pixelColor S world max_depth spp rays =
      some (specPixelColor S colors spp) := by
  unfold pixelColor
  rw [htrace]
  have hne : ((spp : ℕ) : ℚ) ≠ 0 := Nat.cast_ne_zero.mpr (by omega)
  simp only [Option.bind_eq_bind, Option.some_bind, Point.div_def, if_neg hne,
    Option.getD_some]
  simp only [specPixelColor, Point.smul_def, Point.sqrtP, rgbFrom,
    rgbChan_eq_specChan, one_div, inv_mul_eq_div]

/-- C8 witness: a single background ray through an empty scene produces
the gradient color, and the pixel pipeline matches the spec pipeline on
it. -/
theorem C8_witness :
    pixelColor ratSqrt [] 1 1 [⟨Point.default, ⟨0, 0, 1⟩⟩] =
      some (specPixelColor ratSqrt [⟨3 / 4, 17 / 20, 1⟩] 1) := by
  have h1 : ratSqrtFun 1 = 1 := ratSqrtFun_one
  have hu : (⟨0, 0, 1⟩ : Point).unit ratSqrt = some ⟨0, 0, 1⟩ := by
    rw [Point.unit_of_len_squared_ne_zero ratSqrt _
      (by norm_num [Point.len_squared])]
    norm_num [Point.len, Point.len_squared, ratSqrt, h1]
  have hbg : rayColor ratSqrt ⟨Point.default, ⟨0, 0, 1⟩⟩ 1 ([] : HittableList) =
      some ⟨3 / 4, 17 / 20, 1⟩ := by
    simp [rayColor, listHit, hu, Point.add_def, Point.smul_def]
    norm_num
  refine C8_pixel_pipeline ratSqrt [] 1 1 _ _ ?_ rfl (by norm_num)
  simp [List.mapM, List.mapM.loop, hbg]

/-- `new_set_interval` keeps strict-bound semantics except on the one
collapsing encoding (min = f64::MIN with max = f64::MAX, which becomes
Universe). -/
theorem new_set_surrounds (mn mx x : ℚ) (h : ¬(mn = f64min ∧ mx = f64max)) :
    (Interval.new_set_interval mn mx).surrounds x = decide (mn < x ∧ x < mx) := by
  unfold Interval.new_set_interval
  rw [if_neg h]
  by_cases h2 : mn = f64max ∧ mx = f64min
  · rw [if_pos h2]
    obtain ⟨h2a, h2b⟩ := h2
    subst h2a
    subst h2b
    show (false : Bool) = _
    symm
    rw [decide_eq_false_iff_not]
    rintro ⟨ha, hb⟩
    have hlt := f64min_lt_f64max
    linarith
  · rw [if_neg h2]
    rfl

/-- For an interval whose encoded bounds are not the Universe pair,
`surrounds` is exactly the strict two-sided test on `min()`/`max()`. -/
theorem surrounds_char (I : Interval) (x : ℚ)
    (h : ¬(I.imin = f64min ∧ I.imax = f64max)) :
    I.surrounds x = decide (I.imin < x ∧ x < I.imax) := by
  cases I with
  | Empty =>
    show (false : Bool) = _
    symm
    rw [decide_eq_false_iff_not]
    rintro ⟨ha, hb⟩
    have hlt := f64min_lt_f64max
    simp only [Interval.imin, Interval.imax] at ha hb
    linarith
  | Universe => exact absurd ⟨rfl, rfl⟩ h
  | Some mn mx => rfl

/-- One step of the `HittableList::hit` fold preserves the nearest-hit
invariant. -/
theorem fold_step (r : Ray) (ray_t : Interval)
    (hIb : ¬(ray_t.imin = f64min ∧ ray_t.imax = f64max))
    (hImax : ray_t.imax ≤ f64max)
    (hfun : Hittable) (ts : List ℚ) (hc : MemberContract hfun r ts)
    (seen : List (Hittable × List ℚ)) (acc : Option HitRecord)
    (hinv : FoldInv ray_t seen acc) :
    FoldInv ray_t (seen ++ [(hfun, ts)])
      (match hfun r (Interval.new_set_interval ray_t.imin
          ((acc.map (fun hr => hr.t)).getD ray_t.imax)) with
        | some hr => some hr
        | none => acc) := by
  have hb_le : ((acc.map (fun hr => hr.t)).getD ray_t.imax) ≤ ray_t.imax := by
    cases acc with
    | none => simp
    | some rec =>
      simp only [Option.map_some', Option.getD_some]
      have hs := (hinv.1 rec rfl).1
      rw [surrounds_char ray_t rec.t hIb] at hs
      exact le_of_lt (of_decide_eq_true hs).2
  have hJ : ∀ x, (Interval.new_set_interval ray_t.imin
      ((acc.map (fun hr => hr.t)).getD ray_t.imax)).surrounds x =
      decide (ray_t.imin < x ∧
        x < ((acc.map (fun hr => hr.t)).getD ray_t.imax)) := by
    intro x
    apply new_set_surrounds
    rintro ⟨hmn, hmx⟩
    cases acc with
    | none =>
      simp only [Option.map_none', Option.getD_none] at hmx
      exact hIb ⟨hmn, hmx⟩
    | some rec =>
      simp only [Option.map_some', Option.getD_some] at hmx
      have hs := (hinv.1 rec rfl).1
      rw [surrounds_char ray_t rec.t hIb] at hs
      have hs2 := (of_decide_eq_true hs).2
      rw [hmx] at hs2
      exact lt_irrefl _ (lt_of_lt_of_le hs2 hImax)
  have hS := fun x => surrounds_char ray_t x hIb
  rcases hq : hfun r (Interval.new_set_interval ray_t.imin
      ((acc.map (fun hr => hr.t)).getD ray_t.imax)) with _ | hr
  · rw [hq]
    show FoldInv ray_t (seen ++ [(hfun, ts)]) acc
    constructor
    · intro rec' hacc
      obtain ⟨hs, hex, hmin⟩ := hinv.1 rec' hacc
      refine ⟨hs, ?_, ?_⟩
      · obtain ⟨p, hp, hm⟩ := hex
        exact ⟨p, List.mem_append_left _ hp, hm⟩
      · intro p hp t' ht' hst'
        rcases List.mem_append.mp hp with hp1 | hp2
        · exact hmin p hp1 t' ht' hst'
        · rw [List.mem_singleton] at hp2
          subst hp2
          have hnone := hc.2 _ hq t' ht'
          rw [hJ t'] at hnone
          have hnot := of_decide_eq_false hnone
          rw [hacc] at hnot
          simp only [Option.map_some', Option.getD_some] at hnot
          rw [hS t'] at hst'
          have hin := of_decide_eq_true hst'
          by_contra hlt
          push_neg at hlt
          exact hnot ⟨hin.1, hlt⟩
    · intro hacc p hp t' ht'
      rcases List.mem_append.mp hp with hp1 | hp2
      · exact hinv.2 hacc p hp1 t' ht'
      · rw [List.mem_singleton] at hp2
        subst hp2
        have hnone := hc.2 _ hq t' ht'
        rw [hJ t'] at hnone
        have hnot := of_decide_eq_false hnone
        rw [hacc] at hnot
        simp only [Option.map_none', Option.getD_none] at hnot
        rw [hS t']
        exact decide_eq_false hnot
  · rw [hq]
    show FoldInv ray_t (seen ++ [(hfun, ts)]) (some hr)
    obtain ⟨hmem', hsJ, hminJ⟩ := hc.1 _ _ hq
    rw [hJ hr.t] at hsJ
    have hin := of_decide_eq_true hsJ
    have hsurr : ray_t.surrounds hr.t = true := by
      rw [hS hr.t]
      exact decide_eq_true ⟨hin.1, lt_of_lt_of_le hin.2 hb_le⟩
    constructor
    · intro rec' hacc
      obtain rfl := Option.some.inj hacc
      refine ⟨hsurr, ⟨(hfun, ts),
        List.mem_append_right _ (List.mem_singleton_self _), hmem'⟩, ?_⟩
      intro p hp t' ht' hst'
      rcases List.mem_append.mp hp with hp1 | hp2
      · cases hacc2 : acc with
        | none =>
          have hfalse := hinv.2 hacc2 p hp1 t' ht'
          rw [hfalse] at hst'
          exact Bool.noConfusion hst'
        | some rec0 =>
          have hold := (hinv.1 rec0 hacc2).2.2 p hp1 t' ht' hst'
          have hlt : hr.t < rec0.t := by
            have hin2 := hin.2
            rw [hacc2] at hin2
            simpa using hin2
          linarith
      · rw [List.mem_singleton] at hp2
        subst hp2
        by_contra hlt
        push_neg at hlt
        rw [hS t'] at hst'
        have hint2 := of_decide_eq_true hst'
        have hJt : (Interval.new_set_interval ray_t.imin
            ((acc.map (fun hr => hr.t)).getD ray_t.imax)).surrounds t' = true := by
          rw [hJ t']
          exact decide_eq_true ⟨hint2.1, lt_trans hlt hin.2⟩
        have := hminJ t' ht' hJt
        linarith
    · intro hacc
      exact Option.noConfusion hacc

/-- The `HittableList::hit` fold carries the nearest-hit invariant across
any suffix of the member list. -/
theorem listHit_fold_inv (r : Ray) (ray_t : Interval)
    (hIb : ¬(ray_t.imin = f64min ∧ ray_t.imax = f64max))
    (hImax : ray_t.imax ≤ f64max) :
    ∀ (pairs seen : List (Hittable × List ℚ)) (acc : Option HitRecord),
      (∀ p ∈ pairs, MemberContract p.1 r p.2) →
      FoldInv ray_t seen acc →
      FoldInv ray_t (seen ++ pairs)
        (List.foldl
          (fun hit_record x =>
            match x r (Interval.new_set_interval ray_t.imin
                ((hit_record.map (fun hr => hr.t)).getD ray_t.imax)) with
            | some hr => some hr
            | none => hit_record)
          acc (pairs.map Prod.fst)) := by
  intro pairs
  induction pairs with
  | nil =>
    intro seen acc _ hinv
    simpa using hinv
  | cons ph pt ih =>
    intro seen acc hmem hinv
    obtain ⟨hfun, ts⟩ := ph
    rw [List.map_cons, List.foldl_cons]
    have hstep := fold_step r ray_t hIb hImax hfun ts
      (hmem (hfun, ts) (List.mem_cons_self _ _)) seen acc hinv
    have hrest := ih (seen ++ [(hfun, ts)]) _
      (fun p hp => hmem p (List.mem_cons_of_mem _ hp)) hstep
    simpa [List.append_assoc] using hrest

/-- C2 (amended): provided every member obeys the per-member nearest-hit
contract, `HittableList::hit` realizes the nearest-hit contract for every
interval whose encoded bounds are not the pair (f64::MIN, f64::MAX) — that
pair is silently re-encoded as Universe by the fold's re-query, discarding
the upper bound — and whose upper bound does not exceed f64::MAX: any
returned record lies strictly inside the interval, comes from some member,
and no member has a qualifying hit at a strictly smaller distance; the
result is empty exactly when no member has a qualifying hit. -/
theorem C2_nearest_hit (pairs : List (Hittable × List ℚ)) (r : Ray)
    (ray_t : Interval)
    (hmem : ∀ p ∈ pairs, MemberContract p.1 r p.2)
    (hIb : ¬(ray_t.imin = f64min ∧ ray_t.imax = f64max))
    (hImax : ray_t.imax ≤ f64max) :
    (∀ rec, listHit (pairs.map Prod.fst) r ray_t = some rec →
      ray_t.surrounds rec.t = true ∧ (∃ p ∈ pairs, rec.t ∈ p.2) ∧
      ∀ p ∈ pairs, ∀ t' ∈ p.2, ray_t.surrounds t' = true → rec.t ≤ t') ∧
    (listHit (pairs.map Prod.fst) r ray_t = none ↔
      ∀ p ∈ pairs, ∀ t' ∈ p.2, ray_t.surrounds t' = false) := by
  have hinv0 : FoldInv ray_t [] none :=
    ⟨fun rec h => Option.noConfusion h,
     fun _ p hp => absurd hp (List.not_mem_nil p)⟩
  have h := listHit_fold_inv r ray_t hIb hImax pairs [] none hmem hinv0
  rw [List.nil_append] at h
  refine ⟨fun rec hrec => h.1 rec hrec, ?_, ?_⟩
  · intro hnone
    exact h.2 hnone
  · intro hall
    rcases hres : listHit (pairs.map Prod.fst) r ray_t with _ | rec
    · rfl
    · exfalso
      obtain ⟨hs, ⟨p, hp, hm⟩, _⟩ := h.1 rec hres
      have hfalse := hall p hp rec.t hm
      rw [hfalse] at hs
      exact Bool.noConfusion hs

/-- A one-candidate member (hit distance `t0`) satisfying the per-member
nearest-hit contract. -/
theorem singleton_member_contract (t0 : ℚ) (rec : HitRecord)
    (hrec : rec.t = t0) (r : Ray) :
    MemberContract (fun _ I => if I.surrounds t0 then some rec else none)
      r [t0] := by
  constructor
  · intro I rec' h
    simp only at h
    by_cases hs : I.surrounds t0 = true
    · rw [if_pos hs] at h
      obtain rfl := Option.some.inj h
      refine ⟨?_, ?_, ?_⟩
      · rw [hrec]
        exact List.mem_singleton_self _
      · rw [hrec]
        exact hs
      · intro t' ht' _
        rw [List.mem_singleton] at ht'
        subst ht'
        rw [hrec]
    · rw [if_neg hs] at h
      exact Option.noConfusion h
  · intro I h t' ht'
    simp only at h
    rw [List.mem_singleton] at ht'
    subst ht'
    by_cases hs : I.surrounds t' = true
    · rw [if_pos hs] at h
      exact Option.noConfusion h
    · simpa using hs

/-- C2 counterexample: at the interval `Some(f64::MIN, f64::MAX)` the
fold's very first re-query `new_set_interval(f64::MIN, f64::MAX)` collapses
to `Universe`, so a contract-obeying member with its only candidate hit at
exactly t = f64::MAX is returned even though that distance is NOT strictly
inside the queried interval — refuting the claim for "every interval". -/
theorem C2_cex :
    MemberContract c2Member r0 [f64max] ∧
    listHit [c2Member] r0 (Interval.Some f64min f64max) = some c2Rec ∧
    (Interval.Some f64min f64max).surrounds c2Rec.t = false := by
  refine ⟨singleton_member_contract f64max c2Rec rfl r0, ?_, ?_⟩
  · have hJ : Interval.new_set_interval f64min f64max = Interval.Universe := by
      unfold Interval.new_set_interval
      rw [if_pos ⟨rfl, rfl⟩]
    unfold listHit
    simp only [List.foldl_cons, List.foldl_nil, Option.map_none',
      Option.getD_none, Interval.imin, Interval.imax]
    rw [hJ]
    simp [c2Member, Interval.surrounds]
  · show (Interval.Some f64min f64max).surrounds f64max = false
    simp only [Interval.surrounds, decide_eq_false_iff_not]
    rintro ⟨_, hb⟩
    exact lt_irrefl _ hb

/-- C2 witness: over the integrator's own interval shape, a single
contract-obeying member with a hit at distance 5 is returned, lies
strictly inside, and comes from the member list. -/
theorem C2_witness :
    (Interval.Some (1 / 1000) f64max).surrounds wRec.t = true ∧
    (∃ p ∈ wPairs, wRec.t ∈ p.2) := by
  have hmem : ∀ p ∈ wPairs, MemberContract p.1 r0 p.2 := by
    intro p hp
    rw [show wPairs = [(wMember, [5])] from rfl, List.mem_singleton] at hp
    subst hp
    exact singleton_member_contract 5 wRec rfl r0
  have hs5 : (Interval.Some (1 / 1000) f64max).surrounds 5 = true := by
    simp only [Interval.surrounds, decide_eq_true_eq]
    refine ⟨by norm_num, by norm_num [f64max]⟩
  have hfold : listHit (wPairs.map Prod.fst) r0
      (Interval.Some (1 / 1000) f64max) = some wRec := by
    show listHit [wMember] r0 (Interval.Some (1 / 1000) f64max) = some wRec
    unfold listHit
    simp only [List.foldl_cons, List.foldl_nil, Option.map_none',
      Option.getD_none, Interval.imin, Interval.imax]
    rw [new_set_interval_rc]
    simp only [wMember]
    rw [hs5]
    simp
  have h := (C2_nearest_hit wPairs r0 (Interval.Some (1 / 1000) f64max) hmem
    (by
      rintro ⟨ha, _⟩
      simp only [Interval.imin] at ha
      norm_num [f64min, f64max] at ha)
    (le_refl _)).1 wRec hfold
  exact ⟨h.1, h.2.1⟩

/-- C3 witness: a zero-radius sphere yields no hit, and the degenerate
zero-direction ray aborts in the background branch. -/
theorem C3_witness :
    sphereHit ratSqrt ⟨Point.default, 0, cMat⟩ ⟨⟨0, 0, 5⟩, ⟨0, 0, -1⟩⟩ rcInterval
        = none ∧
    rayColor ratSqrt ⟨⟨0, 0, 0⟩, ⟨0, 0, 0⟩⟩ 3 ([] : HittableList) = none :=
  ⟨C3_degenerate_handling.2.1 ratSqrt _ _ _ rfl,
   C3_degenerate_handling.2.2.2.2.2.2 ratSqrt _ 2 []
     (by norm_num [Point.len_squared]) rfl⟩

/-- C4 witness: a dielectric scatters a concrete downward ray with
attenuation (1, 1, 1). -/
theorem C4_witness :
    ∃ scattered : Ray,
      dielectricScatter ratSqrt (3 / 2) (1 / 2) ⟨Point.default, ⟨0, 0, -1⟩⟩
        Point.default ⟨0, 0, 1⟩ true = some (⟨1, 1, 1⟩, scattered) :=
  C4_dielectric_always_scatters ratSqrt (3 / 2) (1 / 2) _ _ _ true
    (by norm_num [Point.len_squared])

end RTW
